import Mathlib

/-!
Shallow embedding of the AES-GCM-SIV seal/open core
(`src/src/aead/aes_gcm_siv.rs`).

Buffers are lists of byte values (`List Nat`). The external collaborators —
the AES block-cipher provider and the POLYVAL field-update kernel — are
abstract function parameters gathered in `Prims`; every result of theirs is
normalised to a 16-byte block with `block16`, mirroring the fixed-size
`Block`/`[u8; 16]` types of the source. Code of the repository that lives
outside `src/` (the key-derivation routine, the portable POLYVAL/CTR engines
of `gcm_siv.rs`, and the hand-written assembly routines) is modelled from the
specification; each such definition carries a doc comment saying so. All
code under `src/` — the two seal orchestrators, the two open orchestrators,
`crypt_last_block`, and the `Drop` implementations — is translated directly.
-/

namespace AesGcmSiv

/-- Block length in bytes (source constant `BLOCK_LEN`). -/
def BLOCK_LEN : Nat := 16

/-- Tag length in bytes (source constant `TAG_LEN`). -/
def TAG_LEN : Nat := 16

/-- Normalise a byte list to exactly 16 bytes, zero-padding on the right.
Mirrors the fixed-size `[u8; 16]` block type of the source. -/
def block16 (l : List Nat) : List Nat := (l ++ List.replicate 16 0).take 16

/-- AES variant (source `aes::Variant`). -/
inductive Variant where
  | AES_128
  | AES_256
deriving DecidableEq

/-- Source `get_encryption_key_size` (lines 81–87). -/
def get_encryption_key_size : Variant → Nat
  | .AES_128 => 16
  | .AES_256 => 32

/-- Abstract external providers (spec §2): a keyed single-block cipher and a
one-step POLYVAL accumulator `(authKey, acc, block) ↦ acc'`. -/
structure Prims where
  aesEncRaw : List Nat → List Nat → List Nat
  polyvalUpdateRaw : List Nat → List Nat → List Nat → List Nat

/-- Block encryption, with the 16-byte output shape enforced by the types of
the source (`Block`). -/
def encB (P : Prims) (key b : List Nat) : List Nat := block16 (P.aesEncRaw key b)

/-- One POLYVAL update step, 16-byte output shape enforced. -/
def polyB (P : Prims) (hk acc blk : List Nat) : List Nat :=
  block16 (P.polyvalUpdateRaw hk acc blk)

/-- Little-endian value of the first four bytes. -/
def le32 (b : List Nat) : Nat :=
  b.getD 0 0 + 256 * (b.getD 1 0 + 256 * (b.getD 2 0 + 256 * b.getD 3 0))

/-- Four little-endian bytes of a 32-bit value. -/
def le32bytes (n : Nat) : List Nat :=
  [n % 256, n / 256 % 256, n / 65536 % 256, n / 16777216 % 256]

/-- Eight little-endian bytes of a 64-bit value. -/
def le64bytes (n : Nat) : List Nat :=
  [n % 256, n / 256 % 256, n / 65536 % 256, n / 16777216 % 256,
   n / 4294967296 % 256, n / 1099511627776 % 256,
   n / 281474976710656 % 256, n / 72057594037927936 % 256]

/-- Number of KDF blocks per variant (spec §4.2: 4 for AES-128, 6 for AES-256). -/
def kdf_nblocks : Variant → Nat
  | .AES_128 => 4
  | .AES_256 => 6

/-- Modelled from the spec: the key-derivation routine (`GcmSivContext::kdf` /
`GcmSivAsmContext::kdf` of `gcm_siv.rs`, not under `src/`). Spec §4.2: encrypt
successive blocks `LE32(counter) ‖ nonce` with the long-term key, concatenate
the low 8 bytes of each output; the first 16 bytes form the authentication
subkey and the next 16 or 32 bytes the encryption subkey. Identical on both
execution paths. -/
def kdf (P : Prims) (key : List Nat) (v : Variant) (nonce : List Nat) :
    List Nat × List Nat :=
  let stream := (List.range (kdf_nblocks v)).flatMap
    (fun i => (encB P key (block16 (le32bytes i ++ nonce))).take 8)
  (stream.take 16, (stream.drop 16).take (get_encryption_key_size v))

/-- First `k` 16-byte chunks of a byte list, each zero-padded to 16 bytes. -/
def chunksN : Nat → List Nat → List (List Nat)
  | 0, _ => []
  | k + 1, l => block16 (l.take 16) :: chunksN k (l.drop 16)

/-- All `⌈len/16⌉` blocks of a byte list, the last one zero-padded. -/
def blocksOf (l : List Nat) : List (List Nat) :=
  chunksN ((l.length + 15) / 16) l

/-- Fold a sequence of 16-byte blocks into a POLYVAL accumulator. -/
def poly_fold (P : Prims) (hk acc : List Nat) (blks : List (List Nat)) : List Nat :=
  blks.foldl (polyB P hk) acc

/-- The trailing length block: little-endian 64-bit bit-length of the AAD,
then little-endian 64-bit bit-length of the message. -/
def length_block (aadLen msgLen : Nat) : List Nat :=
  le64bytes (8 * aadLen) ++ le64bytes (8 * msgLen)

/-- Index-wise rebuild of a list; every buffer-mutating loop of the source is
expressed as one of these. -/
def mapIdx (l : List Nat) (f : Nat → Nat) : List Nat :=
  (List.range l.length).map f

/-- XOR the nonce into the leading bytes of a 16-byte value. -/
def xor_nonce (nonce acc : List Nat) : List Nat :=
  mapIdx acc (fun i =>
    if i < nonce.length then acc.getD i 0 ^^^ nonce.getD i 0 else acc.getD i 0)

/-- Clear the most significant bit of byte 15 (`tag[15] &= 0x7f`). -/
def clear_msb15 (b : List Nat) : List Nat := b.set 15 (b.getD 15 0 &&& 127)

/-- Force the most significant bit of byte 15 (`counter[15] |= 0x80`). -/
def set_msb15 (b : List Nat) : List Nat := b.set 15 (b.getD 15 0 ||| 128)

/-- Modelled from the spec: the portable POLYVAL-based tag computation
(`GcmSivContext::gcm_siv_polyval` and `GcmSivAsmContext::gcm_siv_asm_polyval`
of `gcm_siv.rs`, not under `src/`), steps 1–5 of spec §4.3: fold the
zero-padded AAD blocks, then the zero-padded message blocks, then the length
block; XOR the nonce into the low bytes; clear the top bit of byte 15. The
final one-shot encryption (step 6) is performed by the callers. -/
def gcm_siv_polyval (P : Prims) (authKey msg aad nonce : List Nat) : List Nat :=
  let acc := poly_fold P authKey (List.replicate 16 0) (blocksOf aad)
  let acc := poly_fold P authKey acc (blocksOf msg)
  let acc := polyB P authKey acc (length_block aad.length msg.length)
  clear_msb15 (xor_nonce nonce acc)

/-- Add `i` to the little-endian 32-bit value in the first four bytes,
wrapping on overflow. -/
def add_ctr32 (b : List Nat) (i : Nat) : List Nat :=
  le32bytes ((le32 b + i) % 4294967296) ++ b.drop 4

/-- The `i`-th counter block derived from a 16-byte tag: force the most
significant bit of the last byte, then add `i` to the low 32 bits. -/
def ctr_block (tag : List Nat) (i : Nat) : List Nat :=
  add_ctr32 (set_msb15 (block16 tag)) i

/-- Byte `j` of the counter-mode keystream seeded by `tag`. -/
def ksByte (enc : List Nat → List Nat) (tag : List Nat) (j : Nat) : Nat :=
  (enc (ctr_block tag (j / 16))).getD (j % 16) 0

/-- Modelled from the spec: the portable keystream engine
(`GcmSivContext::gcm_siv_crypt` of `gcm_siv.rs`, not under `src/`),
spec §4.4–§4.5: XOR the little-endian-incrementing counter-mode keystream
into the message bytes, reading each byte at the true input offset
(`in_prefix_len + j`) and writing it at the output-relative offset `j`;
the final partial block uses one extra counter block. -/
def gcm_siv_crypt (enc : List Nat → List Nat) (inOut : List Nat)
    (in_prefix_len : Nat) (tag : List Nat) : List Nat :=
  mapIdx inOut (fun j =>
    if j < inOut.length - in_prefix_len then
      inOut.getD (in_prefix_len + j) 0 ^^^ ksByte enc tag j
    else inOut.getD j 0)

/-- Source `crypt_last_block` (lines 306–357): copy the 16-byte tag into a
counter, force the most significant bit of byte 15, add the whole-block count
`in_out_len / BLOCK_LEN` to the low 32 bits (little-endian, wrapping),
encrypt that single block, and XOR the trailing `in_out_len % BLOCK_LEN`
message bytes against the leading keystream bytes; byte `i` is read at the
true input offset and written at `i - in_prefix_len`. -/
def crypt_last_block (enc : List Nat → List Nat) (tag inOut : List Nat)
    (in_out_len in_prefix_len : Nat) : List Nat :=
  let counter := set_msb15 (block16 tag)
  let last_val := (le32 counter + in_out_len / BLOCK_LEN) % 4294967296
  let counter := le32bytes last_val ++ counter.drop 4
  let ks := enc counter
  let last_bytes_offset := (in_out_len - in_out_len % BLOCK_LEN) + in_prefix_len
  let last_bytes_len := in_out_len % BLOCK_LEN
  mapIdx inOut (fun k =>
    if last_bytes_offset ≤ k + in_prefix_len ∧
        k + in_prefix_len < last_bytes_offset + last_bytes_len then
      inOut.getD (k + in_prefix_len) 0 ^^^
        ks.getD (k + in_prefix_len - last_bytes_offset) 0
    else inOut.getD k 0)

/-- Encrypt-and-XOR the keystream into the byte range `[lo, hi)` of a buffer. -/
def ctr_xor_range (enc : List Nat → List Nat) (tag buf : List Nat)
    (lo hi : Nat) : List Nat :=
  mapIdx buf (fun j =>
    if lo ≤ j ∧ j < hi then buf.getD j 0 ^^^ ksByte enc tag j else buf.getD j 0)

/-- Groups of `w` consecutive blocks, encrypted-and-XORed batch by batch,
starting at block index `b0`. -/
def enc_msg_groups (enc : List Nat → List Nat) (tag : List Nat) (w : Nat) :
    Nat → Nat → List Nat → List Nat
  | _, 0, buf => buf
  | b0, g + 1, buf =>
    enc_msg_groups enc tag w (b0 + w) g
      (ctr_xor_range enc tag buf (16 * b0) (16 * (b0 + w)))

/-- Remaining blocks after the full batches, handled one block at a time. -/
def enc_msg_singles (enc : List Nat → List Nat) (tag : List Nat) :
    Nat → Nat → List Nat → List Nat
  | _, 0, buf => buf
  | b0, r + 1, buf =>
    enc_msg_singles enc tag (b0 + 1) r
      (ctr_xor_range enc tag buf (16 * b0) (16 * b0 + 16))

/-- Modelled from the spec: the batched encrypt-and-XOR assembly routines
`aes[128|256]gcmsiv_enc_msg_x4` / `_x8` (not under `src/`), spec §4.4: a
`w`-block-wide batched counter-mode pass over the first `len` bytes (`len` a
multiple of 16), full batches first, leftover whole blocks singly. -/
def enc_msg_x (w : Nat) (enc : List Nat → List Nat) (tag buf : List Nat)
    (len : Nat) : List Nat :=
  let nb := len / 16
  enc_msg_singles enc tag (w * (nb / w)) (nb % w)
    (enc_msg_groups enc tag w 0 (nb / w) buf)

/-- Modelled from the spec: the fused decrypt-and-hash assembly routine
`aes[128|256]gcmsiv_dec` (not under `src/`): counter-mode-decrypt every whole
block of the `n`-byte ciphertext (reading at input offset `in_prefix_len + j`,
writing at output offset `j`), seeding the counter from the 16 bytes that
follow the ciphertext in the input, and fold each decrypted plaintext block
into the POLYVAL accumulator. -/
def gcmsiv_dec (P : Prims) (authKey : List Nat) (enc : List Nat → List Nat)
    (inOut : List Nat) (in_prefix_len n : Nat) (acc : List Nat) :
    List Nat × List Nat :=
  let tagv := ((inOut.drop in_prefix_len).drop n).take 16
  let whole := n - n % 16
  let newBuf := mapIdx inOut (fun j =>
    if j < whole then inOut.getD (in_prefix_len + j) 0 ^^^ ksByte enc tagv j
    else inOut.getD j 0)
  (newBuf, poly_fold P authKey acc (chunksN (n / 16) (newBuf.take whole)))

/-- Source `seal_fallback` (lines 89–129): derive the subkeys, compute the
POLYVAL pre-tag over the plaintext, encrypt it once into the final tag, and
encrypt the buffer in place with the keystream seeded by that final tag. -/
def seal_fallback (P : Prims) (v : Variant) (key nonce aad inOut : List Nat) :
    List Nat × List Nat :=
  let keys := kdf P key v nonce
  let tag0 := gcm_siv_polyval P keys.1 inOut aad nonce
  let tag := encB P keys.2 tag0
  (gcm_siv_crypt (encB P keys.2) inOut 0 tag, tag)

/-- Source `seal_aes_avxni` (lines 131–253): derive the subkeys, compute the
POLYVAL pre-tag, encrypt it once (`aes_ks_enc_x1`), run the batched
encrypt-and-XOR over the whole blocks — 4-wide when the buffer is shorter
than 128 bytes, 8-wide otherwise — then `crypt_last_block` for a trailing
partial block. -/
def seal_aes_avxni (P : Prims) (v : Variant) (key nonce aad inOut : List Nat) :
    List Nat × List Nat :=
  let keys := kdf P key v nonce
  let out_tag := encB P keys.2 (gcm_siv_polyval P keys.1 inOut aad nonce)
  let whole_in_out_len := inOut.length - inOut.length % BLOCK_LEN
  let buf :=
    if inOut.length < 128 then
      enc_msg_x 4 (encB P keys.2) out_tag inOut whole_in_out_len
    else
      enc_msg_x 8 (encB P keys.2) out_tag inOut whole_in_out_len
  let buf :=
    if inOut.length % BLOCK_LEN ≠ 0 then
      crypt_last_block (encB P keys.2) out_tag buf inOut.length 0
    else buf
  (buf, out_tag)

/-- Source `seal_aes_avxni` with the batch width forced to `w` instead of
chosen by the 128-byte threshold. -/
def seal_avxni_with_width (w : Nat) (P : Prims) (v : Variant)
    (key nonce aad inOut : List Nat) : List Nat × List Nat :=
  let keys := kdf P key v nonce
  let out_tag := encB P keys.2 (gcm_siv_polyval P keys.1 inOut aad nonce)
  let whole_in_out_len := inOut.length - inOut.length % BLOCK_LEN
  let buf := enc_msg_x w (encB P keys.2) out_tag inOut whole_in_out_len
  let buf :=
    if inOut.length % BLOCK_LEN ≠ 0 then
      crypt_last_block (encB P keys.2) out_tag buf inOut.length 0
    else buf
  (buf, out_tag)

/-- Source `open_fallback` (lines 360–424): read the received tag from the
trailing 16 buffer bytes, derive the subkeys, decrypt the ciphertext region
in place (keystream seeded by the received tag, honouring the prefix offset),
recompute the POLYVAL pre-tag over the recovered plaintext and encrypt it
once; the recomputed tag is returned without any comparison. -/
def open_fallback (P : Prims) (v : Variant) (key nonce aad : List Nat)
    (in_prefix_len : Nat) (inOut : List Nat) : List Nat × List Nat :=
  let in_out_len := inOut.length
  let tagv := (inOut.drop (in_out_len - TAG_LEN)).take TAG_LEN
  let keys := kdf P key v nonce
  let body := gcm_siv_crypt (encB P keys.2) (inOut.take (in_out_len - TAG_LEN))
    in_prefix_len tagv
  let buf := body ++ inOut.drop (in_out_len - TAG_LEN)
  let tag0 := gcm_siv_polyval P keys.1
    (buf.take (in_out_len - TAG_LEN - in_prefix_len)) aad nonce
  (buf, encB P keys.2 tag0)

/-- Source `open_avx_aesni` (lines 426–653): derive the subkeys; fold the
whole AAD blocks, then a zero-padded partial AAD block; run the fused
decrypt-and-hash over the whole ciphertext blocks; for a trailing partial
block, re-read the received tag from the buffer, run `crypt_last_block`, and
fold the zero-padded partial plaintext block; fold the length block
unconditionally; XOR the nonce into the low bytes; clear the top bit of
byte 15; encrypt once; return the recomputed tag without any comparison. -/
def open_avx_aesni (P : Prims) (v : Variant) (key nonce aad : List Nat)
    (in_prefix_len : Nat) (inOut : List Nat) : List Nat × List Nat :=
  let keys := kdf P key v nonce
  let acc := poly_fold P keys.1 (List.replicate 16 0)
    (chunksN (aad.length / 16) aad)
  let acc :=
    if aad.length % BLOCK_LEN ≠ 0 then
      polyB P keys.1 acc (block16 (aad.drop (aad.length - aad.length % 16)))
    else acc
  let in_out_len := inOut.length - TAG_LEN - in_prefix_len
  let dec := gcmsiv_dec P keys.1 (encB P keys.2) inOut in_prefix_len
    in_out_len acc
  let step :=
    if in_out_len % BLOCK_LEN ≠ 0 then
      let tagv := (dec.1.drop (in_prefix_len + in_out_len)).take TAG_LEN
      let buf2 := crypt_last_block (encB P keys.2) tagv dec.1 in_out_len
        in_prefix_len
      let acc2 := polyB P keys.1 dec.2
        (block16 ((buf2.drop (in_out_len - in_out_len % 16)).take
          (in_out_len % 16)))
      (buf2, acc2)
    else dec
  let acc := polyB P keys.1 step.2 (length_block aad.length in_out_len)
  let acc := clear_msb15 (xor_nonce nonce acc)
  (step.1, encB P keys.2 (acc.take 16))

/-- Execution path chosen by `gcm_siv::detect_implementation` (spec §4.1); the
capability query is an external collaborator abstracted as this value. -/
inductive Implementation where
  | FALLBACK
  | AVX_AESNI
deriving DecidableEq

/-- Source `aes_gcm_siv_seal` (lines 255–271): dispatch on the detected
implementation. -/
def aes_gcm_siv_seal (impl : Implementation) (P : Prims) (v : Variant)
    (key nonce aad inOut : List Nat) : List Nat × List Nat :=
  match impl with
  | .FALLBACK => seal_fallback P v key nonce aad inOut
  | .AVX_AESNI => seal_aes_avxni P v key nonce aad inOut

/-- Source `aes_gcm_siv_open` (lines 655–673): dispatch on the detected
implementation. -/
def aes_gcm_siv_open (impl : Implementation) (P : Prims) (v : Variant)
    (key nonce aad : List Nat) (in_prefix_len : Nat) (inOut : List Nat) :
    List Nat × List Nat :=
  match impl with
  | .FALLBACK => open_fallback P v key nonce aad in_prefix_len inOut
  | .AVX_AESNI => open_avx_aesni P v key nonce aad in_prefix_len inOut

/-- Source constant `CALCULATED_TAG_LEN` (line 273). -/
def CALCULATED_TAG_LEN : Nat := 16 * 8

/-- Source `impl Drop for CalculatedTag` (lines 280–286): every byte of the
scratch tag accumulator is set to zero when it is dropped. -/
def calculated_tag_drop (t : List Nat) : List Nat := t.map (fun _ => 0)

/-- Source `impl Drop for HTable` (lines 293–299): every byte of the
precomputed hash table is set to zero when it is dropped. -/
def htable_drop (t : List Nat) : List Nat := t.map (fun _ => 0)

/-- Source `Counter` (lines 301–304): the struct declares no `Drop`
implementation, so dropping it runs no code and leaves its bytes unchanged. -/
def counter_drop (t : List Nat) : List Nat := t

/-- Modelled from the spec's words for claim C3 only: a variant of
`seal_fallback` whose keystream is seeded by the pre-final-encryption tag
value (the POLYVAL output after nonce-XOR and bit-clear, before the one-shot
block encryption), to be compared against the source's behaviour. -/
def seal_fallback_preenc_seed (P : Prims) (v : Variant)
    (key nonce aad inOut : List Nat) : List Nat × List Nat :=
  let keys := kdf P key v nonce
  let tag0 := gcm_siv_polyval P keys.1 inOut aad nonce
  let tag := encB P keys.2 tag0
  (gcm_siv_crypt (encB P keys.2) inOut 0 tag0, tag)

/-- Concrete instantiation of the abstract external providers, used only to
evaluate the development at explicit inputs. -/
def testPrims : Prims where
  aesEncRaw := fun _ b => b.map (fun x => (x + 1) % 256)
  polyvalUpdateRaw := fun _ acc blk => List.zipWith (fun a b => a ^^^ b) acc blk

/-- Concrete 16-byte key used by the evaluation theorems. -/
def testKey : List Nat := List.replicate 16 0

/-- Concrete 12-byte nonce used by the evaluation theorems. -/
def testNonce : List Nat := List.replicate 12 0

/-- Concrete AAD used by the evaluation theorems. -/
def testAad : List Nat := [1, 2, 3]

/-- Concrete plaintext used by the evaluation theorems. -/
def testPt : List Nat := [0]

/-- Concrete 20-byte open buffer used by the evaluation theorems. -/
def testBuf : List Nat := List.replicate 20 7

/-- Canonical form of the buffer produced by an open operation: every byte of
the `inOut.length - 16 - p`-byte message is read at the true input offset
`p + k`, XORed with the keystream seeded by the received tag (the trailing 16
buffer bytes), and written at the output-relative offset `k`; all other bytes
are left unchanged. -/
def open_buf_spec (enc : List Nat → List Nat) (inOut : List Nat) (p : Nat) :
    List Nat :=
  mapIdx inOut (fun k =>
    if k < inOut.length - TAG_LEN - p then
      inOut.getD (p + k) 0 ^^^
        ksByte enc ((inOut.drop (inOut.length - TAG_LEN)).take TAG_LEN) k
    else inOut.getD k 0)

/-! ### List infrastructure -/

theorem length_block16 (l : List Nat) : (block16 l).length = 16 := by
  simp [block16]

theorem length_mapIdx (l : List Nat) (f : Nat → Nat) :
    (mapIdx l f).length = l.length := by
  simp [mapIdx]

theorem getD_mapIdx (l : List Nat) (f : Nat → Nat) (j : Nat)
    (h : j < l.length) : (mapIdx l f).getD j 0 = f j := by
  unfold mapIdx
  rw [List.getD_eq_getElem?_getD, List.getElem?_map,
    List.getElem?_range h]
  rfl

theorem mapIdx_congr {l : List Nat} {f g : Nat → Nat}
    (h : ∀ j < l.length, f j = g j) : mapIdx l f = mapIdx l g := by
  unfold mapIdx
  exact List.map_congr_left (fun a ha => h a (List.mem_range.mp ha))

theorem mapIdx_id (l : List Nat) : mapIdx l (fun j => l.getD j 0) = l := by
  apply List.ext_getElem (by simp [mapIdx])
  intro n h1 h2
  simp only [mapIdx, List.getElem_map, List.getElem_range]
  exact List.getD_eq_getElem l 0 h2

theorem list_eq_of_getD {l m : List Nat} (h : l.length = m.length)
    (hg : ∀ k < l.length, l.getD k 0 = m.getD k 0) : l = m := by
  apply List.ext_getElem h
  intro n h1 h2
  rw [← List.getD_eq_getElem l 0 h1, ← List.getD_eq_getElem m 0 h2]
  exact hg n h1

theorem getD_drop (l : List Nat) (m i : Nat) :
    (l.drop m).getD i 0 = l.getD (m + i) 0 := by
  rw [List.getD_eq_getElem?_getD, List.getD_eq_getElem?_getD,
    List.getElem?_drop]

theorem getD_take (l : List Nat) (m i : Nat) (h : i < m) :
    (l.take m).getD i 0 = l.getD i 0 := by
  rw [List.getD_eq_getElem?_getD, List.getD_eq_getElem?_getD,
    List.getElem?_take, if_pos h]

/-! ### Counter-mode keystream lemmas -/

theorem length_ctr_xor_range (enc : List Nat → List Nat) (tag buf : List Nat)
    (lo hi : Nat) : (ctr_xor_range enc tag buf lo hi).length = buf.length :=
  length_mapIdx _ _

theorem getD_ctr_xor_range (enc : List Nat → List Nat) (tag buf : List Nat)
    (lo hi j : Nat) (h : j < buf.length) :
    (ctr_xor_range enc tag buf lo hi).getD j 0 =
      if lo ≤ j ∧ j < hi then buf.getD j 0 ^^^ ksByte enc tag j
      else buf.getD j 0 :=
  getD_mapIdx _ _ _ h

theorem ctr_xor_range_empty (enc : List Nat → List Nat) (tag buf : List Nat)
    (lo : Nat) : ctr_xor_range enc tag buf lo lo = buf := by
  unfold ctr_xor_range
  have h : ∀ j < buf.length,
      (if lo ≤ j ∧ j < lo then buf.getD j 0 ^^^ ksByte enc tag j
        else buf.getD j 0) = buf.getD j 0 := by
    intro j hj
    rw [if_neg]
    omega
  rw [mapIdx_congr h, mapIdx_id]

theorem ctr_xor_range_chain (enc : List Nat → List Nat) (tag buf : List Nat)
    (m m2 : Nat) (h : m ≤ m2) :
    ctr_xor_range enc tag (ctr_xor_range enc tag buf 0 m) m m2 =
      ctr_xor_range enc tag buf 0 m2 := by
  apply list_eq_of_getD
  · rw [length_ctr_xor_range, length_ctr_xor_range, length_ctr_xor_range]
  · intro k hk
    rw [length_ctr_xor_range, length_ctr_xor_range] at hk
    have hk1 : k < (ctr_xor_range enc tag buf 0 m).length := by
      rw [length_ctr_xor_range]
      exact hk
    rw [getD_ctr_xor_range _ _ _ _ _ _ hk1,
      getD_ctr_xor_range enc tag buf 0 m k hk,
      getD_ctr_xor_range enc tag buf 0 m2 k hk]
    by_cases h1 : m ≤ k ∧ k < m2
    · rw [if_pos h1, if_neg (by omega), if_pos (by omega)]
    · rw [if_neg h1]
      by_cases h2 : 0 ≤ k ∧ k < m
      · rw [if_pos h2, if_pos (by omega)]
      · rw [if_neg h2, if_neg (by omega)]

theorem enc_msg_groups_eq (enc : List Nat → List Nat) (tag : List Nat)
    (w g : Nat) : ∀ (b0 : Nat) (buf : List Nat),
    enc_msg_groups enc tag w b0 g (ctr_xor_range enc tag buf 0 (16 * b0)) =
      ctr_xor_range enc tag buf 0 (16 * b0 + 16 * (w * g)) := by
  induction g with
  | zero =>
    intro b0 buf
    simp only [enc_msg_groups, Nat.mul_zero, Nat.add_zero]
  | succ g ih =>
    intro b0 buf
    simp only [enc_msg_groups]
    rw [ctr_xor_range_chain enc tag buf (16 * b0) (16 * (b0 + w))
      (by omega)]
    have h1 : 16 * (b0 + w) = 16 * (b0 + w) := rfl
    have h2 := ih (b0 + w) buf
    rw [h2]
    congr 1
    ring

theorem enc_msg_singles_eq (enc : List Nat → List Nat) (tag : List Nat)
    (r : Nat) : ∀ (b0 : Nat) (buf : List Nat),
    enc_msg_singles enc tag b0 r (ctr_xor_range enc tag buf 0 (16 * b0)) =
      ctr_xor_range enc tag buf 0 (16 * b0 + 16 * r) := by
  induction r with
  | zero =>
    intro b0 buf
    simp only [enc_msg_singles, Nat.mul_zero, Nat.add_zero]
  | succ r ih =>
    intro b0 buf
    simp only [enc_msg_singles]
    have he : 16 * b0 + 16 = 16 * (b0 + 1) := by ring
    rw [he, ctr_xor_range_chain enc tag buf (16 * b0) (16 * (b0 + 1))
      (by omega)]
    rw [ih (b0 + 1) buf]
    congr 1
    ring

theorem enc_msg_x_eq (w : Nat) (enc : List Nat → List Nat)
    (tag buf : List Nat) (len : Nat) :
    enc_msg_x w enc tag buf len =
      ctr_xor_range enc tag buf 0 (16 * (len / 16)) := by
  show enc_msg_singles enc tag (w * (len / 16 / w)) (len / 16 % w)
      (enc_msg_groups enc tag w 0 (len / 16 / w) buf) =
    ctr_xor_range enc tag buf 0 (16 * (len / 16))
  have h0 : buf = ctr_xor_range enc tag buf 0 (16 * 0) := by
    rw [Nat.mul_zero, ctr_xor_range_empty]
  conv_lhs => rw [h0]
  rw [enc_msg_groups_eq enc tag w (len / 16 / w) 0 buf, Nat.mul_zero,
    Nat.zero_add, enc_msg_singles_eq enc tag (len / 16 % w)
      (w * (len / 16 / w)) buf]
  congr 1
  have := Nat.div_add_mod (len / 16) w
  omega

theorem gcm_siv_crypt_zero (enc : List Nat → List Nat)
    (tag inOut : List Nat) :
    gcm_siv_crypt enc inOut 0 tag =
      ctr_xor_range enc tag inOut 0 inOut.length := by
  unfold gcm_siv_crypt ctr_xor_range
  apply mapIdx_congr
  intro j hj
  have h1 : (0:Nat) + j = j := by omega
  by_cases hc : j < inOut.length
  · rw [if_pos (by omega), if_pos (by omega), h1]
  · omega

theorem length_crypt_last_block (enc : List Nat → List Nat)
    (tag inOut : List Nat) (n p : Nat) :
    (crypt_last_block enc tag inOut n p).length = inOut.length :=
  length_mapIdx _ _

theorem getD_crypt_last_block (enc : List Nat → List Nat)
    (tag inOut : List Nat) (n p k : Nat) (hk : k < inOut.length) :
    (crypt_last_block enc tag inOut n p).getD k 0 =
      if n - n % 16 ≤ k ∧ k < n then
        inOut.getD (k + p) 0 ^^^
          (enc (ctr_block tag (n / 16))).getD (k - (n - n % 16)) 0
      else inOut.getD k 0 := by
  unfold crypt_last_block
  rw [getD_mapIdx _ _ _ hk]
  have hc : (n - n % BLOCK_LEN + p ≤ k + p ∧
      k + p < n - n % BLOCK_LEN + p + n % BLOCK_LEN) ↔
      (n - n % 16 ≤ k ∧ k < n) := by
    unfold BLOCK_LEN
    omega
  by_cases h1 : n - n % 16 ≤ k ∧ k < n
  · rw [if_pos (hc.mpr h1), if_pos h1]
    have harg : k + p - (n - n % BLOCK_LEN + p) = k - (n - n % 16) := by
      unfold BLOCK_LEN
      omega
    rw [harg]
    rfl
  · rw [if_neg (fun hx => h1 (hc.mp hx)), if_neg h1]

theorem seal_crypt_compose (enc : List Nat → List Nat) (tag inOut : List Nat)
    (hrem : inOut.length % 16 ≠ 0) :
    crypt_last_block enc tag
        (ctr_xor_range enc tag inOut 0 (16 * (inOut.length / 16)))
        inOut.length 0 =
      gcm_siv_crypt enc inOut 0 tag := by
  rw [gcm_siv_crypt_zero]
  apply list_eq_of_getD
  · rw [length_crypt_last_block, length_ctr_xor_range, length_ctr_xor_range]
  · intro k hk
    rw [length_crypt_last_block, length_ctr_xor_range] at hk
    have hkin : k <
        (ctr_xor_range enc tag inOut 0 (16 * (inOut.length / 16))).length := by
      rw [length_ctr_xor_range]
      exact hk
    rw [getD_crypt_last_block _ _ _ _ _ _ hkin, Nat.add_zero,
      getD_ctr_xor_range enc tag inOut 0 (16 * (inOut.length / 16)) k hk,
      getD_ctr_xor_range enc tag inOut 0 inOut.length k hk]
    by_cases h1 : k < 16 * (inOut.length / 16)
    · rw [if_neg (by omega), if_pos (by omega), if_pos (by omega)]
    · rw [if_pos (by omega), if_neg (by omega), if_pos (by omega)]
      simp only [ksByte]
      have e1 : k / 16 = inOut.length / 16 := by omega
      have e2 : k % 16 = k - (inOut.length - inOut.length % 16) := by omega
      rw [e1, e2]

theorem seal_width_eq (w : Nat) (P : Prims) (v : Variant)
    (key nonce aad inOut : List Nat) :
    seal_avxni_with_width w P v key nonce aad inOut =
      seal_fallback P v key nonce aad inOut := by
  unfold seal_avxni_with_width seal_fallback
  dsimp only
  rw [Prod.mk.injEq]
  refine ⟨?_, rfl⟩
  rw [enc_msg_x_eq]
  have hq : (inOut.length - inOut.length % BLOCK_LEN) / 16 =
      inOut.length / 16 := by
    unfold BLOCK_LEN
    omega
  rw [hq]
  by_cases hrem : inOut.length % BLOCK_LEN ≠ 0
  · rw [if_pos hrem]
    exact seal_crypt_compose _ _ _ (by unfold BLOCK_LEN at hrem; exact hrem)
  · rw [if_neg hrem]
    unfold BLOCK_LEN at hrem
    have hb : 16 * (inOut.length / 16) = inOut.length := by omega
    rw [hb, gcm_siv_crypt_zero]

theorem seal_avxni_dispatch (P : Prims) (v : Variant)
    (key nonce aad inOut : List Nat) :
    seal_aes_avxni P v key nonce aad inOut =
      seal_avxni_with_width (if inOut.length < 128 then 4 else 8)
        P v key nonce aad inOut := by
  by_cases h : inOut.length < 128 <;>
    simp [seal_aes_avxni, seal_avxni_with_width, h]

theorem seal_paths_eq (P : Prims) (v : Variant)
    (key nonce aad inOut : List Nat) :
    seal_aes_avxni P v key nonce aad inOut =
      seal_fallback P v key nonce aad inOut := by
  rw [seal_avxni_dispatch, seal_width_eq]

/-! ### Open-path buffer lemmas -/

theorem length_gcm_siv_crypt (enc : List Nat → List Nat) (inOut : List Nat)
    (p : Nat) (tag : List Nat) :
    (gcm_siv_crypt enc inOut p tag).length = inOut.length :=
  length_mapIdx _ _

theorem getD_gcm_siv_crypt (enc : List Nat → List Nat) (inOut : List Nat)
    (p : Nat) (tag : List Nat) (k : Nat) (hk : k < inOut.length) :
    (gcm_siv_crypt enc inOut p tag).getD k 0 =
      if k < inOut.length - p then
        inOut.getD (p + k) 0 ^^^ ksByte enc tag k
      else inOut.getD k 0 :=
  getD_mapIdx _ _ _ hk

theorem length_open_buf_spec (enc : List Nat → List Nat) (inOut : List Nat)
    (p : Nat) : (open_buf_spec enc inOut p).length = inOut.length :=
  length_mapIdx _ _

theorem getD_open_buf_spec (enc : List Nat → List Nat) (inOut : List Nat)
    (p k : Nat) (hk : k < inOut.length) :
    (open_buf_spec enc inOut p).getD k 0 =
      if k < inOut.length - TAG_LEN - p then
        inOut.getD (p + k) 0 ^^^
          ksByte enc ((inOut.drop (inOut.length - TAG_LEN)).take TAG_LEN) k
      else inOut.getD k 0 :=
  getD_mapIdx _ _ _ hk

theorem length_gcmsiv_dec_fst (P : Prims) (authKey : List Nat)
    (enc : List Nat → List Nat) (inOut : List Nat) (p n : Nat)
    (acc : List Nat) :
    (gcmsiv_dec P authKey enc inOut p n acc).1.length = inOut.length :=
  length_mapIdx _ _

theorem getD_gcmsiv_dec_fst (P : Prims) (authKey : List Nat)
    (enc : List Nat → List Nat) (inOut : List Nat) (p n : Nat)
    (acc : List Nat) (k : Nat) (hk : k < inOut.length) :
    (gcmsiv_dec P authKey enc inOut p n acc).1.getD k 0 =
      if k < n - n % 16 then
        inOut.getD (p + k) 0 ^^^
          ksByte enc (((inOut.drop p).drop n).take 16) k
      else inOut.getD k 0 :=
  getD_mapIdx _ _ _ hk

theorem gcmsiv_dec_snd (P : Prims) (authKey : List Nat)
    (enc : List Nat → List Nat) (inOut : List Nat) (p n : Nat)
    (acc : List Nat) :
    (gcmsiv_dec P authKey enc inOut p n acc).2 =
      poly_fold P authKey acc
        (chunksN (n / 16)
          ((gcmsiv_dec P authKey enc inOut p n acc).1.take (n - n % 16))) :=
  rfl

theorem getD_block16 (l : List Nat) (i : Nat) (h : i < 16) :
    (block16 l).getD i 0 = l.getD i 0 := by
  unfold block16
  rw [getD_take _ _ _ h]
  by_cases hl : i < l.length
  · exact List.getD_append _ _ _ _ hl
  · rw [List.getD_append_right _ _ _ _ (by omega),
      List.getD_eq_default _ _ (le_of_not_lt hl)]
    rw [List.getD_eq_getElem?_getD, List.getElem?_replicate]
    by_cases hr : i - l.length < 16 <;> simp [hr]

theorem open_fallback_buf (P : Prims) (v : Variant)
    (key nonce aad : List Nat) (p : Nat) (inOut : List Nat) :
    (open_fallback P v key nonce aad p inOut).1 =
      open_buf_spec (encB P (kdf P key v nonce).2) inOut p := by
  unfold open_fallback
  dsimp only
  apply list_eq_of_getD
  · rw [length_open_buf_spec, List.length_append, length_gcm_siv_crypt,
      List.length_take, List.length_drop]
    omega
  · intro k hk
    rw [List.length_append, length_gcm_siv_crypt, List.length_take,
      List.length_drop] at hk
    have hkL : k < inOut.length := by omega
    rw [getD_open_buf_spec _ _ _ _ hkL]
    by_cases h1 : k < inOut.length - TAG_LEN
    · rw [List.getD_append _ _ _ _
        (by rw [length_gcm_siv_crypt, List.length_take]; omega)]
      rw [getD_gcm_siv_crypt _ _ _ _ _ (by rw [List.length_take]; omega)]
      rw [List.length_take]
      by_cases h2 : k < inOut.length - TAG_LEN - p
      · rw [if_pos (by omega), if_pos (by omega),
          getD_take _ _ _ (by omega)]
      · rw [if_neg (by omega), if_neg (by omega),
          getD_take _ _ _ (by omega)]
    · rw [List.getD_append_right _ _ _ _
        (by rw [length_gcm_siv_crypt, List.length_take]; omega)]
      rw [length_gcm_siv_crypt, List.length_take]
      rw [getD_drop]
      have he : inOut.length - TAG_LEN +
          (k - (inOut.length - TAG_LEN) ⊓ inOut.length) = k := by
        unfold TAG_LEN at h1 ⊢
        omega
      rw [he, if_neg (by unfold TAG_LEN at h1 ⊢ ; omega)]

theorem dec_tag_slice (P : Prims) (authKey : List Nat)
    (enc : List Nat → List Nat) (inOut : List Nat) (p : Nat)
    (acc : List Nat) (h : p + 16 ≤ inOut.length) :
    ((gcmsiv_dec P authKey enc inOut p (inOut.length - TAG_LEN - p)
        acc).1.drop (p + (inOut.length - TAG_LEN - p))).take TAG_LEN =
      (inOut.drop (inOut.length - TAG_LEN)).take TAG_LEN := by
  unfold TAG_LEN
  have hpn : p + (inOut.length - 16 - p) = inOut.length - 16 := by omega
  rw [hpn]
  apply list_eq_of_getD
  · rw [List.length_take, List.length_take, List.length_drop,
      List.length_drop, length_gcmsiv_dec_fst]
  · intro i hi
    rw [List.length_take, List.length_drop, length_gcmsiv_dec_fst] at hi
    have hi16 : i < 16 := by omega
    rw [getD_take _ _ _ hi16, getD_take _ _ _ hi16, getD_drop, getD_drop]
    rw [getD_gcmsiv_dec_fst _ _ _ _ _ _ _ _ (by omega)]
    rw [if_neg (by omega)]

theorem open_avx_buf (P : Prims) (v : Variant) (key nonce aad : List Nat)
    (p : Nat) (inOut : List Nat) (h : p + 16 ≤ inOut.length) :
    (open_avx_aesni P v key nonce aad p inOut).1 =
      open_buf_spec (encB P (kdf P key v nonce).2) inOut p := by
  unfold open_avx_aesni
  dsimp only
  have hdd : ∀ m : Nat,
      ((inOut.drop p).drop (inOut.length - TAG_LEN - p)).take m =
        (inOut.drop (inOut.length - TAG_LEN)).take m := by
    intro m
    rw [List.drop_drop]
    congr 2
    unfold TAG_LEN
    omega
  by_cases hrem : (inOut.length - TAG_LEN - p) % BLOCK_LEN ≠ 0
  · rw [if_pos hrem]
    dsimp only
    rw [dec_tag_slice _ _ _ _ _ _ h]
    apply list_eq_of_getD
    · rw [length_crypt_last_block, length_gcmsiv_dec_fst,
        length_open_buf_spec]
    · intro k hk
      rw [length_crypt_last_block, length_gcmsiv_dec_fst] at hk
      rw [getD_crypt_last_block _ _ _ _ _ _
          (by rw [length_gcmsiv_dec_fst]; exact hk),
        getD_open_buf_spec _ _ _ _ hk]
      unfold TAG_LEN BLOCK_LEN at *
      by_cases h1 : (inOut.length - 16 - p) -
            (inOut.length - 16 - p) % 16 ≤ k ∧ k < inOut.length - 16 - p
      · rw [if_pos h1,
          getD_gcmsiv_dec_fst _ _ _ _ _ _ _ _ (by omega),
          if_neg (by omega), if_pos (by omega)]
        simp only [ksByte]
        have e0 : k + p = p + k := by omega
        have e1 : k / 16 = (inOut.length - 16 - p) / 16 := by omega
        have e2 : k % 16 = k - ((inOut.length - 16 - p) -
            (inOut.length - 16 - p) % 16) := by omega
        rw [e0, e1, e2]
      · rw [if_neg h1, getD_gcmsiv_dec_fst _ _ _ _ _ _ _ _ hk, hdd]
        by_cases h2 : k < (inOut.length - 16 - p) -
            (inOut.length - 16 - p) % 16
        · rw [if_pos h2, if_pos (by omega)]
        · rw [if_neg h2, if_neg (by omega)]
  · rw [if_neg hrem]
    apply list_eq_of_getD
    · rw [length_gcmsiv_dec_fst, length_open_buf_spec]
    · intro k hk
      rw [length_gcmsiv_dec_fst] at hk
      rw [getD_gcmsiv_dec_fst _ _ _ _ _ _ _ _ hk,
        getD_open_buf_spec _ _ _ _ hk, hdd]
      unfold TAG_LEN BLOCK_LEN at *
      by_cases h2 : k < (inOut.length - 16 - p) -
          (inOut.length - 16 - p) % 16
      · rw [if_pos h2, if_pos (by omega)]
      · rw [if_neg h2, if_neg (by omega)]

/-! ### POLYVAL chunking lemmas -/

theorem getD_replicate_zero (n i : Nat) :
    (List.replicate n (0 : Nat)).getD i 0 = 0 := by
  rw [List.getD_eq_getElem?_getD, List.getElem?_replicate]
  by_cases hr : i < n <;> simp [hr]

theorem block16_take (l : List Nat) : block16 (l.take 16) = block16 l := by
  apply list_eq_of_getD
  · rw [length_block16, length_block16]
  · intro i hi
    rw [length_block16] at hi
    rw [getD_block16 _ _ hi, getD_block16 _ _ hi, getD_take _ _ _ hi]

theorem chunksN_take_congr (k : Nat) : ∀ (l l2 : List Nat),
    l.take (16 * k) = l2.take (16 * k) → chunksN k l = chunksN k l2 := by
  induction k with
  | zero => intro l l2 _; rfl
  | succ k ih =>
    intro l l2 hkeq
    have h16 : l.take 16 = l2.take 16 := by
      have h1 : (l.take (16 * (k + 1))).take 16 =
          (l2.take (16 * (k + 1))).take 16 := by rw [hkeq]
      rwa [List.take_take, List.take_take,
        Nat.min_eq_left (show (16:Nat) ≤ 16 * (k + 1) by omega)] at h1
    have hdrop : (l.drop 16).take (16 * k) = (l2.drop 16).take (16 * k) := by
      rw [List.take_drop, List.take_drop]
      have he : 16 + 16 * k = 16 * (k + 1) := by ring
      rw [he, hkeq]
    unfold chunksN
    rw [h16, ih _ _ hdrop]

theorem chunksN_append_last (k : Nat) : ∀ (l : List Nat),
    chunksN (k + 1) l = chunksN k l ++ [block16 (l.drop (16 * k))] := by
  induction k with
  | zero =>
    intro l
    unfold chunksN
    rw [Nat.mul_zero, List.drop_zero, block16_take]
    rfl
  | succ k ih =>
    intro l
    show block16 (l.take 16) :: chunksN (k + 1) (l.drop 16) = _
    rw [ih (l.drop 16), List.drop_drop]
    have he : 16 + 16 * k = 16 * (k + 1) := by ring
    rw [he]
    rfl

theorem blocksOf_split (l : List Nat) :
    blocksOf l = chunksN (l.length / 16) l ++
      (if l.length % 16 ≠ 0 then
        [block16 (l.drop (l.length - l.length % 16))] else []) := by
  unfold blocksOf
  by_cases h : l.length % 16 ≠ 0
  · have hk : (l.length + 15) / 16 = l.length / 16 + 1 := by omega
    rw [hk, chunksN_append_last, if_pos h]
    have he : 16 * (l.length / 16) = l.length - l.length % 16 := by omega
    rw [he]
  · have hk : (l.length + 15) / 16 = l.length / 16 := by omega
    rw [hk, if_neg h, List.append_nil]

theorem poly_fold_append (P : Prims) (hk acc : List Nat)
    (b1 b2 : List (List Nat)) :
    poly_fold P hk acc (b1 ++ b2) =
      poly_fold P hk (poly_fold P hk acc b1) b2 :=
  List.foldl_append _ _ _ _

theorem poly_fold_singleton (P : Prims) (hk acc blk : List Nat) :
    poly_fold P hk acc [blk] = polyB P hk acc blk :=
  rfl

theorem length_polyB (P : Prims) (hk acc blk : List Nat) :
    (polyB P hk acc blk).length = 16 :=
  length_block16 _

theorem length_xor_nonce (nonce acc : List Nat) :
    (xor_nonce nonce acc).length = acc.length :=
  length_mapIdx _ _

theorem length_clear_msb15 (b : List Nat) :
    (clear_msb15 b).length = b.length :=
  List.length_set _ _ _

theorem length_gcm_siv_polyval (P : Prims) (authKey msg aad nonce : List Nat) :
    (gcm_siv_polyval P authKey msg aad nonce).length = 16 := by
  unfold gcm_siv_polyval
  rw [length_clear_msb15, length_xor_nonce, length_polyB]

theorem take_crypt_last_block (enc : List Nat → List Nat)
    (tag inOut : List Nat) (n p m : Nat) (hm : m ≤ n - n % 16) :
    (crypt_last_block enc tag inOut n p).take m = inOut.take m := by
  apply list_eq_of_getD
  · rw [List.length_take, List.length_take, length_crypt_last_block]
  · intro i hi
    rw [List.length_take, length_crypt_last_block] at hi
    rw [getD_take _ _ _ (by omega), getD_take _ _ _ (by omega),
      getD_crypt_last_block _ _ _ _ _ _ (by omega), if_neg (by omega)]

/-! ### Open-path tag lemmas -/

theorem aad_acc_eq (P : Prims) (hk aad init : List Nat) :
    (if aad.length % BLOCK_LEN ≠ 0 then
        polyB P hk (poly_fold P hk init (chunksN (aad.length / 16) aad))
          (block16 (aad.drop (aad.length - aad.length % 16)))
      else poly_fold P hk init (chunksN (aad.length / 16) aad)) =
      poly_fold P hk init (blocksOf aad) := by
  rw [blocksOf_split, poly_fold_append]
  unfold BLOCK_LEN
  by_cases hx : aad.length % 16 ≠ 0
  · rw [if_pos hx, if_pos hx]
    rfl
  · rw [if_neg hx, if_neg hx]
    rfl

theorem dec_take_prefix_eq (P : Prims) (ak : List Nat)
    (enc : List Nat → List Nat) (inOut : List Nat) (p : Nat)
    (acc : List Nat) (n : Nat) (hn : n = inOut.length - TAG_LEN - p)
    (h : p + 16 ≤ inOut.length) :
    ((gcmsiv_dec P ak enc inOut p n acc).1.take (n - n % 16)).take
        (16 * (n / 16)) =
      ((open_buf_spec enc inOut p).take n).take (16 * (n / 16)) := by
  unfold TAG_LEN at hn
  apply list_eq_of_getD
  · rw [List.length_take, List.length_take, List.length_take,
      List.length_take, length_gcmsiv_dec_fst, length_open_buf_spec]
    omega
  · intro i hi
    rw [List.length_take, List.length_take, length_gcmsiv_dec_fst] at hi
    have hiw : i < n - n % 16 := by omega
    have hin : i < n := by omega
    have hiL : i < inOut.length := by omega
    rw [getD_take _ _ _ (by omega), getD_take _ _ _ hiw,
      getD_take _ _ _ (by omega), getD_take _ _ _ hin,
      getD_gcmsiv_dec_fst _ _ _ _ _ _ _ _ hiL,
      getD_open_buf_spec _ _ _ _ hiL, if_pos hiw,
      if_pos (by unfold TAG_LEN; omega)]
    rw [List.drop_drop]
    have he : p + n = inOut.length - TAG_LEN := by unfold TAG_LEN; omega
    rw [he]
    rfl

theorem open_fallback_snd (P : Prims) (v : Variant)
    (key nonce aad : List Nat) (p : Nat) (inOut : List Nat) :
    (open_fallback P v key nonce aad p inOut).2 =
      encB P (kdf P key v nonce).2 (gcm_siv_polyval P (kdf P key v nonce).1
        ((open_fallback P v key nonce aad p inOut).1.take
          (inOut.length - TAG_LEN - p)) aad nonce) :=
  rfl

theorem open_avx_snd (P : Prims) (v : Variant) (key nonce aad : List Nat)
    (p : Nat) (inOut : List Nat) (h : p + 16 ≤ inOut.length) :
    (open_avx_aesni P v key nonce aad p inOut).2 =
      encB P (kdf P key v nonce).2 (gcm_siv_polyval P (kdf P key v nonce).1
        ((open_buf_spec (encB P (kdf P key v nonce).2) inOut p).take
          (inOut.length - TAG_LEN - p)) aad nonce) := by
  have hbuf := open_avx_buf P v key nonce aad p inOut h
  have hpl : ((open_buf_spec (encB P (kdf P key v nonce).2) inOut p).take
      (inOut.length - TAG_LEN - p)).length = inOut.length - TAG_LEN - p := by
    rw [List.length_take, length_open_buf_spec]
    unfold TAG_LEN
    omega
  unfold open_avx_aesni at hbuf ⊢
  dsimp only at hbuf ⊢
  by_cases hrem : (inOut.length - TAG_LEN - p) % BLOCK_LEN ≠ 0
  · rw [if_pos hrem] at hbuf ⊢
    dsimp only at hbuf ⊢
    rw [List.take_of_length_le
      (by rw [length_clear_msb15, length_xor_nonce, length_polyB])]
    rw [dec_tag_slice _ _ _ _ _ _ h] at hbuf ⊢
    rw [hbuf]
    rw [gcmsiv_dec_snd]
    rw [chunksN_take_congr ((inOut.length - TAG_LEN - p) / 16) _ _
      (dec_take_prefix_eq P (kdf P key v nonce).1 (encB P (kdf P key v nonce).2)
        inOut p _ _ rfl h)]
    rw [aad_acc_eq]
    unfold gcm_siv_polyval
    dsimp only
    rw [blocksOf_split ((open_buf_spec (encB P (kdf P key v nonce).2)
      inOut p).take (inOut.length - TAG_LEN - p))]
    rw [hpl]
    rw [if_pos (show (inOut.length - TAG_LEN - p) % 16 ≠ 0 by
      unfold BLOCK_LEN at hrem; exact hrem)]
    rw [poly_fold_append, poly_fold_singleton]
    rw [List.drop_take]
    have he2 : inOut.length - TAG_LEN - p -
        (inOut.length - TAG_LEN - p - (inOut.length - TAG_LEN - p) % 16) =
        (inOut.length - TAG_LEN - p) % 16 := by omega
    rw [he2]
  · rw [if_neg hrem] at hbuf ⊢
    rw [List.take_of_length_le
      (by rw [length_clear_msb15, length_xor_nonce, length_polyB])]
    rw [gcmsiv_dec_snd]
    rw [chunksN_take_congr ((inOut.length - TAG_LEN - p) / 16) _ _
      (dec_take_prefix_eq P (kdf P key v nonce).1 (encB P (kdf P key v nonce).2)
        inOut p _ _ rfl h)]
    rw [aad_acc_eq]
    unfold gcm_siv_polyval
    dsimp only
    rw [blocksOf_split ((open_buf_spec (encB P (kdf P key v nonce).2)
      inOut p).take (inOut.length - TAG_LEN - p))]
    rw [hpl]
    rw [if_neg (show ¬ (inOut.length - TAG_LEN - p) % 16 ≠ 0 by
      unfold BLOCK_LEN at hrem; exact hrem), List.append_nil]

theorem open_paths_eq (P : Prims) (v : Variant) (key nonce aad : List Nat)
    (p : Nat) (inOut : List Nat) (h : p + 16 ≤ inOut.length) :
    open_avx_aesni P v key nonce aad p inOut =
      open_fallback P v key nonce aad p inOut := by
  rw [Prod.ext_iff]
  constructor
  · rw [open_avx_buf P v key nonce aad p inOut h,
      open_fallback_buf P v key nonce aad p inOut]
  · rw [open_avx_snd P v key nonce aad p inOut h, open_fallback_snd,
      open_fallback_buf P v key nonce aad p inOut]

/-! ### Round-trip lemmas -/

theorem seal_fallback_fst_length (P : Prims) (v : Variant)
    (key nonce aad pt : List Nat) :
    (seal_fallback P v key nonce aad pt).1.length = pt.length :=
  length_gcm_siv_crypt _ _ _ _

theorem seal_fallback_snd_length (P : Prims) (v : Variant)
    (key nonce aad pt : List Nat) :
    (seal_fallback P v key nonce aad pt).2.length = 16 :=
  length_block16 _

theorem seal_buf_tag_slice (P : Prims) (v : Variant)
    (key nonce aad pt : List Nat) :
    (((seal_fallback P v key nonce aad pt).1 ++
          (seal_fallback P v key nonce aad pt).2).drop
        (((seal_fallback P v key nonce aad pt).1 ++
          (seal_fallback P v key nonce aad pt).2).length - TAG_LEN)).take
      TAG_LEN = (seal_fallback P v key nonce aad pt).2 := by
  have hct := seal_fallback_fst_length P v key nonce aad pt
  have htag := seal_fallback_snd_length P v key nonce aad pt
  have he : ((seal_fallback P v key nonce aad pt).1 ++
      (seal_fallback P v key nonce aad pt).2).length - TAG_LEN =
      (seal_fallback P v key nonce aad pt).1.length := by
    rw [List.length_append, hct, htag]
    unfold TAG_LEN
    omega
  rw [he, List.drop_left, List.take_of_length_le (by rw [htag]; unfold TAG_LEN; omega)]

theorem roundtrip_fallback (P : Prims) (v : Variant)
    (key nonce aad pt : List Nat) :
    (open_fallback P v key nonce aad 0
        ((seal_fallback P v key nonce aad pt).1 ++
          (seal_fallback P v key nonce aad pt).2)).1.take pt.length = pt ∧
    (open_fallback P v key nonce aad 0
        ((seal_fallback P v key nonce aad pt).1 ++
          (seal_fallback P v key nonce aad pt).2)).2 =
      (seal_fallback P v key nonce aad pt).2 := by
  have hct := seal_fallback_fst_length P v key nonce aad pt
  have htag := seal_fallback_snd_length P v key nonce aad pt
  have hL : ((seal_fallback P v key nonce aad pt).1 ++
      (seal_fallback P v key nonce aad pt).2).length = pt.length + 16 := by
    rw [List.length_append, hct, htag]
  have hbuf := open_fallback_buf P v key nonce aad 0
    ((seal_fallback P v key nonce aad pt).1 ++
      (seal_fallback P v key nonce aad pt).2)
  have hpt : (open_fallback P v key nonce aad 0
      ((seal_fallback P v key nonce aad pt).1 ++
        (seal_fallback P v key nonce aad pt).2)).1.take pt.length = pt := by
    rw [hbuf]
    apply list_eq_of_getD
    · rw [List.length_take, length_open_buf_spec, hL]
      omega
    · intro k hk
      rw [List.length_take, length_open_buf_spec, hL] at hk
      have hkn : k < pt.length := by omega
      rw [getD_take _ _ _ hkn,
        getD_open_buf_spec _ _ _ _ (by rw [hL]; omega)]
      rw [seal_buf_tag_slice P v key nonce aad pt, hL,
        if_pos (by unfold TAG_LEN; omega)]
      rw [Nat.zero_add,
        List.getD_append _ _ _ _ (by rw [hct]; exact hkn)]
      show (gcm_siv_crypt _ pt 0 _).getD k 0 ^^^ _ = _
      rw [getD_gcm_siv_crypt _ _ _ _ _ hkn, if_pos (by omega), Nat.zero_add]
      exact Nat.xor_cancel_right _ _
  refine ⟨hpt, ?_⟩
  rw [open_fallback_snd]
  have he : ((seal_fallback P v key nonce aad pt).1 ++
      (seal_fallback P v key nonce aad pt).2).length - TAG_LEN - 0 =
      pt.length := by
    rw [hL]
    unfold TAG_LEN
    omega
  rw [he, hpt]
  rfl

/-! ### Prefix-offset lemmas -/

theorem open_buf_spec_shift (enc : List Nat → List Nat)
    (junk ct tagbytes : List Nat) (ht : tagbytes.length = 16) (k : Nat)
    (hk : k < ct.length) :
    (open_buf_spec enc (junk ++ (ct ++ tagbytes)) junk.length).getD k 0 =
      (open_buf_spec enc (ct ++ tagbytes) 0).getD k 0 := by
  have hL1 : (junk ++ (ct ++ tagbytes)).length =
      junk.length + (ct.length + 16) := by
    rw [List.length_append, List.length_append, ht]
  have hL2 : (ct ++ tagbytes).length = ct.length + 16 := by
    rw [List.length_append, ht]
  have htag1 : ((junk ++ (ct ++ tagbytes)).drop
      ((junk ++ (ct ++ tagbytes)).length - TAG_LEN)).take TAG_LEN =
      tagbytes := by
    have he : (junk ++ (ct ++ tagbytes)).length - TAG_LEN =
        junk.length + ct.length := by
      rw [hL1]
      unfold TAG_LEN
      omega
    rw [he, ← List.drop_drop, List.drop_left, List.drop_left,
      List.take_of_length_le (by rw [ht]; unfold TAG_LEN; omega)]
  have htag2 : ((ct ++ tagbytes).drop
      ((ct ++ tagbytes).length - TAG_LEN)).take TAG_LEN = tagbytes := by
    have he : (ct ++ tagbytes).length - TAG_LEN = ct.length := by
      rw [hL2]
      unfold TAG_LEN
      omega
    rw [he, List.drop_left,
      List.take_of_length_le (by rw [ht]; unfold TAG_LEN; omega)]
  rw [getD_open_buf_spec _ _ _ _ (by omega),
    getD_open_buf_spec _ _ _ _ (by omega), htag1, htag2]
  rw [if_pos (by rw [hL1]; unfold TAG_LEN; omega),
    if_pos (by rw [hL2]; unfold TAG_LEN; omega)]
  rw [Nat.zero_add,
    List.getD_append_right _ _ _ _ (by omega)]
  have he2 : junk.length + k - junk.length = k := by omega
  rw [he2]

theorem open_fallback_prefix_fst (P : Prims) (v : Variant)
    (key nonce aad junk ct tagbytes : List Nat) (ht : tagbytes.length = 16) :
    (open_fallback P v key nonce aad junk.length
        (junk ++ (ct ++ tagbytes))).1.take ct.length =
      (open_fallback P v key nonce aad 0 (ct ++ tagbytes)).1.take
        ct.length := by
  rw [open_fallback_buf, open_fallback_buf]
  apply list_eq_of_getD
  · simp only [List.length_take, length_open_buf_spec, List.length_append,
      ht]
    omega
  · intro k hk
    rw [List.length_take, length_open_buf_spec] at hk
    have hkc : k < ct.length := by omega
    rw [getD_take _ _ _ hkc, getD_take _ _ _ hkc,
      open_buf_spec_shift _ _ _ _ ht _ hkc]

theorem open_fallback_prefix_snd (P : Prims) (v : Variant)
    (key nonce aad junk ct tagbytes : List Nat) (ht : tagbytes.length = 16) :
    (open_fallback P v key nonce aad junk.length
        (junk ++ (ct ++ tagbytes))).2 =
      (open_fallback P v key nonce aad 0 (ct ++ tagbytes)).2 := by
  rw [open_fallback_snd, open_fallback_snd]
  have he1 : (junk ++ (ct ++ tagbytes)).length - TAG_LEN - junk.length =
      ct.length := by
    rw [List.length_append, List.length_append, ht]
    unfold TAG_LEN
    omega
  have he2 : (ct ++ tagbytes).length - TAG_LEN - 0 = ct.length := by
    rw [List.length_append, ht]
    unfold TAG_LEN
    omega
  rw [he1, he2, open_fallback_prefix_fst P v key nonce aad junk ct
    tagbytes ht]

/-! ### Claim theorems -/

/-- C1: for every key, nonce, AAD, and plaintext, sealing the plaintext and
then opening the resulting ciphertext-plus-tag with the same key, nonce, and
AAD recovers the original plaintext bytes, and the recomputed tag returned by
open equals the tag returned by seal — on either execution path (the length
bound of the claim is not even needed). -/
theorem C1_round_trip (impl : Implementation) (P : Prims) (v : Variant)
    (key nonce aad pt : List Nat) :
    (aes_gcm_siv_open impl P v key nonce aad 0
        ((aes_gcm_siv_seal impl P v key nonce aad pt).1 ++
          (aes_gcm_siv_seal impl P v key nonce aad pt).2)).1.take pt.length =
      pt ∧
    (aes_gcm_siv_open impl P v key nonce aad 0
        ((aes_gcm_siv_seal impl P v key nonce aad pt).1 ++
          (aes_gcm_siv_seal impl P v key nonce aad pt).2)).2 =
      (aes_gcm_siv_seal impl P v key nonce aad pt).2 := by
  cases impl
  case FALLBACK => exact roundtrip_fallback P v key nonce aad pt
  case AVX_AESNI =>
    simp only [aes_gcm_siv_seal, aes_gcm_siv_open]
    rw [seal_paths_eq P v key nonce aad pt,
      open_paths_eq P v key nonce aad 0 _
        (by rw [List.length_append, seal_fallback_fst_length,
          seal_fallback_snd_length]; omega)]
    exact roundtrip_fallback P v key nonce aad pt

/-- C2: for every key, nonce, AAD, buffer and prefix offset (with the buffer
long enough to hold the prefix and the trailing tag), the Portable path
(`seal_fallback`/`open_fallback`) and the Accelerated path
(`seal_aes_avxni`/`open_avx_aesni`) produce byte-identical ciphertext
(resp. plaintext) and byte-identical tags. -/
theorem C2_path_equivalence (P : Prims) (v : Variant)
    (key nonce aad inOut buf : List Nat) (p : Nat)
    (h : p + 16 ≤ buf.length) :
    seal_fallback P v key nonce aad inOut =
      seal_aes_avxni P v key nonce aad inOut ∧
    open_fallback P v key nonce aad p buf =
      open_avx_aesni P v key nonce aad p buf :=
  ⟨(seal_paths_eq P v key nonce aad inOut).symm,
   (open_paths_eq P v key nonce aad p buf h).symm⟩

theorem C2_path_equivalence_witness :
    (3 + 16 ≤ (testBuf : List Nat).length) ∧
    (seal_fallback testPrims Variant.AES_128 testKey testNonce testAad testPt =
      seal_aes_avxni testPrims Variant.AES_128 testKey testNonce testAad
        testPt ∧
    open_fallback testPrims Variant.AES_128 testKey testNonce testAad 3
        testBuf =
      open_avx_aesni testPrims Variant.AES_128 testKey testNonce testAad 3
        testBuf) :=
  ⟨by decide,
   C2_path_equivalence testPrims Variant.AES_128 testKey testNonce testAad
     testPt testBuf 3 (by decide)⟩

/-- C3 (counterexample): the claim says the initial counter block of the
keystream is the pre-final-encryption tag value (the POLYVAL output after
nonce-XOR and bit-clear, before the one-shot block encryption).
`seal_fallback_preenc_seed` implements exactly that reading of the spec; at
this concrete input it produces a different ciphertext than the source's
`seal_fallback`, which seeds the keystream with the post-encryption tag. -/
theorem C3_counterexample :
    seal_fallback testPrims Variant.AES_128 testKey testNonce [] [0] ≠
      seal_fallback_preenc_seed testPrims Variant.AES_128 testKey testNonce
        [] [0] := by
  decide

/-- C3 (amended): for every seal and open operation, the initial counter
block of the counter-mode keystream is the FINAL tag — the POLYVAL output
after the nonce-XOR and the top-bit-clear, and then the one-shot block
encryption — with its most significant bit forced to 1 (`ctr_block` inside
`ksByte` performs the bit-force): every encrypted byte is the input byte
XORed with the keystream seeded by the tag that seal returns (resp. the
received tag read from the trailing buffer bytes, for open). -/
theorem C3_final_tag_seed (P : Prims) (v : Variant)
    (key nonce aad inOut : List Nat) (p : Nat) (buf : List Nat) :
    (∀ j < inOut.length,
      (seal_fallback P v key nonce aad inOut).1.getD j 0 =
        inOut.getD j 0 ^^^
          ksByte (encB P (kdf P key v nonce).2)
            ((seal_fallback P v key nonce aad inOut).2) j) ∧
    (∀ j < inOut.length,
      (seal_aes_avxni P v key nonce aad inOut).1.getD j 0 =
        inOut.getD j 0 ^^^
          ksByte (encB P (kdf P key v nonce).2)
            ((seal_aes_avxni P v key nonce aad inOut).2) j) ∧
    (∀ j < buf.length - TAG_LEN - p,
      (open_fallback P v key nonce aad p buf).1.getD j 0 =
        buf.getD (p + j) 0 ^^^
          ksByte (encB P (kdf P key v nonce).2)
            ((buf.drop (buf.length - TAG_LEN)).take TAG_LEN) j) := by
  refine ⟨?_, ?_, ?_⟩
  · intro j hj
    rw [show (seal_fallback P v key nonce aad inOut).1 =
        gcm_siv_crypt (encB P (kdf P key v nonce).2) inOut 0
          ((seal_fallback P v key nonce aad inOut).2) from rfl,
      getD_gcm_siv_crypt _ _ _ _ _ hj, if_pos (by omega), Nat.zero_add]
  · intro j hj
    rw [seal_paths_eq P v key nonce aad inOut,
      show (seal_fallback P v key nonce aad inOut).1 =
        gcm_siv_crypt (encB P (kdf P key v nonce).2) inOut 0
          ((seal_fallback P v key nonce aad inOut).2) from rfl,
      getD_gcm_siv_crypt _ _ _ _ _ hj, if_pos (by omega), Nat.zero_add]
  · intro j hj
    rw [open_fallback_buf P v key nonce aad p buf,
      getD_open_buf_spec _ _ _ _ (by unfold TAG_LEN at hj; omega),
      if_pos hj]

theorem C3_final_tag_seed_witness :
    (0 < (testPt : List Nat).length) ∧
    (seal_fallback testPrims Variant.AES_128 testKey testNonce testAad
        testPt).1.getD 0 0 =
      (testPt : List Nat).getD 0 0 ^^^
        ksByte (encB testPrims
            (kdf testPrims testKey Variant.AES_128 testNonce).2)
          ((seal_fallback testPrims Variant.AES_128 testKey testNonce testAad
            testPt).2) 0 :=
  ⟨by decide,
   (C3_final_tag_seed testPrims Variant.AES_128 testKey testNonce testAad
     testPt 0 []).1 0 (by decide)⟩

/-- C4: whenever the message length `n` is not a multiple of 16, the
partial-block handler `crypt_last_block` forms exactly one extra counter
block — the 16-byte tag with the most significant bit of its last byte
forced to 1 and the number `n / 16` of whole message blocks added to its low
32 bits as a little-endian value with wrapping overflow (`ctr_block`) —
encrypts that single block, and XORs only the remaining `n % 16` message
bytes against the leading bytes of that keystream block, reading each byte
at the true input offset `k + p` and writing it at the output-relative
offset `k`; every other byte is unchanged. -/
theorem C4_partial_block (enc : List Nat → List Nat) (tag inOut : List Nat)
    (n p : Nat) (hrem : n % 16 ≠ 0) :
    (crypt_last_block enc tag inOut n p).length = inOut.length ∧
    ∀ k < inOut.length,
      (crypt_last_block enc tag inOut n p).getD k 0 =
        if n - n % 16 ≤ k ∧ k < n then
          inOut.getD (k + p) 0 ^^^
            (enc (ctr_block tag (n / 16))).getD (k - (n - n % 16)) 0
        else inOut.getD k 0 :=
  ⟨length_crypt_last_block enc tag inOut n p,
   fun k hk => getD_crypt_last_block enc tag inOut n p k hk⟩

theorem C4_partial_block_witness :
    ((5:Nat) % 16 ≠ 0) ∧
    (crypt_last_block (fun b => b) (List.replicate 16 2)
        (List.replicate 10 7) 5 2).length =
      (List.replicate 10 (7:Nat)).length :=
  ⟨by decide,
   (C4_partial_block (fun b => b) (List.replicate 16 2) (List.replicate 10 7)
     5 2 (by decide)).1⟩

/-- C5: for every AAD and message (including empty ones), the accelerated
open path's tag computation folds the AAD blocks, then the decrypted message
blocks, then — unconditionally, never skipped — one final 16-byte length
block of two little-endian 64-bit bit-lengths (`length_block`), XORs the
12-byte nonce into the low 12 bytes (`xor_nonce`), clears the most
significant bit of byte 15 (`clear_msb15`), and encrypts the result exactly
once with the encryption subkey to produce the returned 16-byte tag. -/
theorem C5_tag_computation (P : Prims) (v : Variant)
    (key nonce aad : List Nat) (p : Nat) (inOut : List Nat)
    (hn : nonce.length = 12) (h : p + 16 ≤ inOut.length) :
    (open_avx_aesni P v key nonce aad p inOut).2 =
      encB P (kdf P key v nonce).2
        (clear_msb15 (xor_nonce nonce
          (polyB P (kdf P key v nonce).1
            (poly_fold P (kdf P key v nonce).1
              (poly_fold P (kdf P key v nonce).1 (List.replicate 16 0)
                (blocksOf aad))
              (blocksOf ((open_avx_aesni P v key nonce aad p inOut).1.take
                (inOut.length - TAG_LEN - p))))
            (length_block aad.length (inOut.length - TAG_LEN - p))))) := by
  have hpl : ((open_buf_spec (encB P (kdf P key v nonce).2) inOut p).take
      (inOut.length - TAG_LEN - p)).length =
      inOut.length - TAG_LEN - p := by
    rw [List.length_take, length_open_buf_spec]
    unfold TAG_LEN
    omega
  rw [open_avx_buf P v key nonce aad p inOut h,
    open_avx_snd P v key nonce aad p inOut h]
  unfold gcm_siv_polyval
  dsimp only
  rw [hpl]

theorem C5_tag_computation_witness :
    (testNonce : List Nat).length = 12 ∧
    (3 + 16 ≤ (testBuf : List Nat).length) ∧
    (open_avx_aesni testPrims Variant.AES_128 testKey testNonce testAad 3
        testBuf).2 =
      encB testPrims (kdf testPrims testKey Variant.AES_128 testNonce).2
        (clear_msb15 (xor_nonce testNonce
          (polyB testPrims
            (kdf testPrims testKey Variant.AES_128 testNonce).1
            (poly_fold testPrims
              (kdf testPrims testKey Variant.AES_128 testNonce).1
              (poly_fold testPrims
                (kdf testPrims testKey Variant.AES_128 testNonce).1
                (List.replicate 16 0) (blocksOf testAad))
              (blocksOf ((open_avx_aesni testPrims Variant.AES_128 testKey
                  testNonce testAad 3 testBuf).1.take
                ((testBuf : List Nat).length - TAG_LEN - 3))))
            (length_block (testAad : List Nat).length
              ((testBuf : List Nat).length - TAG_LEN - 3))))) :=
  ⟨by decide, by decide,
   C5_tag_computation testPrims Variant.AES_128 testKey testNonce testAad 3
     testBuf (by decide) (by decide)⟩

/-- C6: for every key, nonce, AAD, ciphertext and 16-byte tag, opening a
buffer in which the ciphertext begins at a nonzero prefix offset (after
`junk.length` leading bytes, with plaintext written starting at offset 0)
yields the same plaintext bytes and the same recomputed tag as opening the
ciphertext-plus-tag with prefix offset 0, on either execution path. -/
theorem C6_prefix_offset (impl : Implementation) (P : Prims) (v : Variant)
    (key nonce aad junk ct tagbytes : List Nat)
    (ht : tagbytes.length = 16) :
    (aes_gcm_siv_open impl P v key nonce aad junk.length
        (junk ++ (ct ++ tagbytes))).1.take ct.length =
      (aes_gcm_siv_open impl P v key nonce aad 0
        (ct ++ tagbytes)).1.take ct.length ∧
    (aes_gcm_siv_open impl P v key nonce aad junk.length
        (junk ++ (ct ++ tagbytes))).2 =
      (aes_gcm_siv_open impl P v key nonce aad 0 (ct ++ tagbytes)).2 := by
  cases impl
  case FALLBACK =>
    exact ⟨open_fallback_prefix_fst P v key nonce aad junk ct tagbytes ht,
      open_fallback_prefix_snd P v key nonce aad junk ct tagbytes ht⟩
  case AVX_AESNI =>
    simp only [aes_gcm_siv_open]
    rw [open_paths_eq P v key nonce aad junk.length _
        (by simp only [List.length_append, ht]; omega),
      open_paths_eq P v key nonce aad 0 _
        (by simp only [List.length_append, ht]; omega)]
    exact ⟨open_fallback_prefix_fst P v key nonce aad junk ct tagbytes ht,
      open_fallback_prefix_snd P v key nonce aad junk ct tagbytes ht⟩

theorem C6_prefix_offset_witness :
    ((List.replicate 16 (4:Nat)).length = 16) ∧
    (aes_gcm_siv_open Implementation.FALLBACK testPrims Variant.AES_128
        testKey testNonce testAad ([1, 2] : List Nat).length
        ([1, 2] ++ ([3] ++ List.replicate 16 4))).1.take
        ([3] : List Nat).length =
      (aes_gcm_siv_open Implementation.FALLBACK testPrims Variant.AES_128
        testKey testNonce testAad 0
        ([3] ++ List.replicate 16 4)).1.take ([3] : List Nat).length :=
  ⟨by decide,
   (C6_prefix_offset Implementation.FALLBACK testPrims Variant.AES_128
     testKey testNonce testAad [1, 2] [3] (List.replicate 16 4)
     (by decide)).1⟩

/-- C7: in the accelerated seal path, the 4-block batched encrypt-and-XOR
routine is chosen exactly when the message buffer length is under 128 bytes
and the 8-block routine otherwise, and for every input the resulting
ciphertext and tag are byte-identical regardless of which batch width is
chosen. -/
theorem C7_batch_width (P : Prims) (v : Variant)
    (key nonce aad inOut : List Nat) :
    seal_aes_avxni P v key nonce aad inOut =
      seal_avxni_with_width (if inOut.length < 128 then 4 else 8)
        P v key nonce aad inOut ∧
    seal_avxni_with_width 4 P v key nonce aad inOut =
      seal_avxni_with_width 8 P v key nonce aad inOut :=
  ⟨seal_avxni_dispatch P v key nonce aad inOut,
   (seal_width_eq 4 P v key nonce aad inOut).trans
     (seal_width_eq 8 P v key nonce aad inOut).symm⟩

/-- C8: open never performs the authenticity comparison: for every input it
runs to completion (it is a total function) and returns the 16-byte tag
recomputed over the speculatively decrypted plaintext — the one-shot
encryption of the POLYVAL value of the decrypted bytes — whether or not that
tag matches the tag stored in the trailing buffer bytes; no error value
exists in its type. -/
theorem C8_no_tag_comparison (impl : Implementation) (P : Prims)
    (v : Variant) (key nonce aad : List Nat) (p : Nat) (inOut : List Nat)
    (h : p + 16 ≤ inOut.length) :
    (aes_gcm_siv_open impl P v key nonce aad p inOut).2 =
      encB P (kdf P key v nonce).2 (gcm_siv_polyval P (kdf P key v nonce).1
        ((aes_gcm_siv_open impl P v key nonce aad p inOut).1.take
          (inOut.length - TAG_LEN - p)) aad nonce) := by
  cases impl
  case FALLBACK =>
    exact open_fallback_snd P v key nonce aad p inOut
  case AVX_AESNI =>
    simp only [aes_gcm_siv_open]
    rw [open_avx_buf P v key nonce aad p inOut h,
      open_avx_snd P v key nonce aad p inOut h]

theorem C8_no_tag_comparison_witness :
    (3 + 16 ≤ (testBuf : List Nat).length) ∧
    (aes_gcm_siv_open Implementation.AVX_AESNI testPrims Variant.AES_128
        testKey testNonce testAad 3 testBuf).2 =
      encB testPrims (kdf testPrims testKey Variant.AES_128 testNonce).2
        (gcm_siv_polyval testPrims
          (kdf testPrims testKey Variant.AES_128 testNonce).1
          ((aes_gcm_siv_open Implementation.AVX_AESNI testPrims
              Variant.AES_128 testKey testNonce testAad 3 testBuf).1.take
            ((testBuf : List Nat).length - TAG_LEN - 3)) testAad
          testNonce) :=
  ⟨by decide,
   C8_no_tag_comparison Implementation.AVX_AESNI testPrims Variant.AES_128
     testKey testNonce testAad 3 testBuf (by decide)⟩

/-- C9 (counterexample): the claim says the counter block scratch object has
all of its bytes set to zero when it is dropped; the source declares no
`Drop` implementation for `Counter` (lines 301–304), so dropping it leaves
its bytes unchanged, as this concrete nonzero counter shows. -/
theorem C9_counterexample :
    counter_drop (List.replicate 16 1) ≠ List.replicate 16 0 := by
  decide

/-- C9 (amended): of the accelerated path's fixed-size scratch objects, the
calculated-tag accumulator and the precomputed hash table have all of their
bytes set to zero when dropped (their `Drop` implementations zero every
byte); the counter block has no `Drop` implementation and is not zeroized. -/
theorem C9_zeroize_on_drop (t u : List Nat) :
    calculated_tag_drop t = List.replicate t.length 0 ∧
    htable_drop u = List.replicate u.length 0 := by
  constructor <;> simp [calculated_tag_drop, htable_drop, List.map_const]

/-- C10: for every open call on a buffer of length `L` with prefix offset
`p` (with `L ≥ p + 16`), the trailing 16 bytes of the buffer — the received
tag — are never modified: the output buffer has the same length and agrees
with the input on every index at or beyond `L - 16`, so after open returns
the caller can still read the original tag to compare it against the
recomputed tag. -/
theorem C10_tag_bytes_preserved (impl : Implementation) (P : Prims)
    (v : Variant) (key nonce aad : List Nat) (p : Nat) (inOut : List Nat)
    (h : p + 16 ≤ inOut.length) :
    (aes_gcm_siv_open impl P v key nonce aad p inOut).1.length =
      inOut.length ∧
    ∀ i, inOut.length - TAG_LEN ≤ i →
      (aes_gcm_siv_open impl P v key nonce aad p inOut).1.getD i 0 =
        inOut.getD i 0 := by
  have hb : (aes_gcm_siv_open impl P v key nonce aad p inOut).1 =
      open_buf_spec (encB P (kdf P key v nonce).2) inOut p := by
    cases impl
    case FALLBACK => exact open_fallback_buf P v key nonce aad p inOut
    case AVX_AESNI => exact open_avx_buf P v key nonce aad p inOut h
  rw [hb]
  refine ⟨length_open_buf_spec _ _ _, ?_⟩
  intro i hi
  by_cases hiL : i < inOut.length
  · rw [getD_open_buf_spec _ _ _ _ hiL,
      if_neg (by unfold TAG_LEN at hi ⊢ ; omega)]
  · rw [List.getD_eq_default _ _ (by rw [length_open_buf_spec]; omega),
      List.getD_eq_default _ _ (by omega)]

theorem C10_tag_bytes_preserved_witness :
    (3 + 16 ≤ (testBuf : List Nat).length) ∧
    ((testBuf : List Nat).length - TAG_LEN ≤ 19) ∧
    (aes_gcm_siv_open Implementation.FALLBACK testPrims Variant.AES_128
        testKey testNonce testAad 3 testBuf).1.getD 19 0 =
      (testBuf : List Nat).getD 19 0 :=
  ⟨by decide, by decide,
   (C10_tag_bytes_preserved Implementation.FALLBACK testPrims
     Variant.AES_128 testKey testNonce testAad 3 testBuf (by decide)).2 19
     (by decide)⟩

end AesGcmSiv
